import Mathlib

/-!
Verification of the pygama `_eigen_processors` ufunc engine and kernels.

Shallow embedding of:
- `eigen_ufunc.hh`: per-argument metadata (`arg_info`), the alignment
  predicate (`is_aligned`), the dispatch engine (`execute_ufunc`), the
  signature deriver (`get_signature`) and the registry constructor
  (`ufunc_implementation`).
- `pole_zero.cpp`, `trap_filters.cpp`, `mean.cpp`: the example kernels.

Conventions of the embedding:
- A sample value is `FP K`: either `FP.fin x` (an ordinary finite
  floating-point value, modelled by the exact field element `x`), or
  `FP.nonfin` (any IEEE non-finite value: NaN or an infinity).  For
  `+`, `-`, `*`, IEEE arithmetic yields a non-finite result whenever an
  operand is non-finite, which `FP.nonfin` absorbs.  Finite-operand
  overflow to infinity is outside the model (exact arithmetic).
- An Eigen block is modelled row-wise: `w : Nat -> Nat -> FP K` with
  `w r i` = sample `i` of row (waveform) `r`.  Eigen column operations
  (`.col(i)` arithmetic, `.isFinite().rowwise().all()`, `.select`) are
  coefficient-wise per row, and are embedded pointwise in `r`.
- The kernels are embedded for the `T_time = int` instantiations
  (`rise`, `flat : Int`), for which `int(round(rise)) = rise` and all
  loop bounds coincide with the integer region bounds.  The claims under
  verification only constrain integer-valued parameters.
- `pole_zero` takes the host math library's `exp` as an explicit function
  parameter `E` (so the definition stays computable); the theorems
  instantiate it with `Real.exp` over `K = Real`, matching `Eigen::exp`.
-/

namespace PygamaEigen

/-! ## Sample values -/

/-- Finite-or-non-finite sample value. `fin x` models a finite IEEE value by
the exact field element `x`; `nonfin` models NaN or an infinity. -/
inductive FP (K : Type) where
  | fin : K → FP K
  | nonfin : FP K
deriving DecidableEq, Repr

namespace FP

variable {K : Type}

/-- IEEE addition: non-finite operands give non-finite results. -/
def add [Field K] : FP K → FP K → FP K
  | fin a, fin b => fin (a + b)
  | _, _ => nonfin

/-- IEEE subtraction: non-finite operands give non-finite results. -/
def sub [Field K] : FP K → FP K → FP K
  | fin a, fin b => fin (a - b)
  | _, _ => nonfin

/-- IEEE multiplication: non-finite operands give non-finite results. -/
def mul [Field K] : FP K → FP K → FP K
  | fin a, fin b => fin (a * b)
  | _, _ => nonfin

instance [Field K] : Add (FP K) := ⟨add⟩
instance [Field K] : Sub (FP K) := ⟨sub⟩
instance [Field K] : Mul (FP K) := ⟨mul⟩

/-- Division of a sample by a plain scalar (e.g. `trap.col(i)/rise`).
Division by zero yields a non-finite value (IEEE inf/NaN). -/
def divs [Field K] [DecidableEq K] (v : FP K) (r : K) : FP K :=
  match v with
  | fin a => if r = 0 then nonfin else fin (a / r)
  | nonfin => nonfin

/-- `isFinite()` of one coefficient. -/
def isFin : FP K → Bool
  | fin _ => true
  | nonfin => false

end FP

/-- `w_in.isFinite().rowwise().all()` for one row of an `n`-column block:
every one of the `n` samples of the sequence is finite. -/
def allFinite {K : Type} (n : ℕ) (x : ℕ → FP K) : Bool :=
  (List.range n).all (fun i => (x i).isFin)

/-! ## Example kernels

`pole_zero.cpp`, `trap_filters.cpp`, `mean.cpp`.  Each kernel body is an
Eigen expression over block columns; every column operation used here is
coefficient-wise per row, so the embedding is indexed by column `i` and
row `r`.  The row index is left unbounded (the C++ block has a fixed
number of rows, but each row is computed independently by the same
expression, so extending the domain costs nothing). -/

/-- The per-row decay constant `c = Eigen::exp(-t_tau.inverse())`
(`pole_zero.cpp` lines 33-34).  `E` is the host math library's `exp`
(instantiated with `Real.exp` in the theorems).  A non-finite tau maps to
`nonfin`; its exact value never matters because `not_nan` already forces
the whole output row non-finite whenever tau is non-finite. -/
def pzc {K : Type} [Field K] (E : K → K) : FP K → FP K
  | .fin t => .fin (E (-t⁻¹))
  | .nonfin => .nonfin

/-- `pole_zero` kernel (`pole_zero.cpp` lines 28-41), output column `i`,
row `r`: `not_nan = w_in.isFinite().rowwise().all() && t_tau.isFinite()`;
`w_out.col(0) = not_nan.select(w_in.col(0), NAN)`;
`w_out.col(i) = w_out.col(i-1) + w_in.col(i) - w_in.col(i-1)*c`. -/
def pole_zero {K : Type} [Field K] (E : K → K) (n : ℕ)
    (w : ℕ → ℕ → FP K) (tau : ℕ → FP K) : ℕ → ℕ → FP K
  | 0 => fun r => if allFinite n (w r) && (tau r).isFin then w r 0 else .nonfin
  | i + 1 => fun r =>
      pole_zero E n w tau i r + w r (i + 1) - w r i * pzc E (tau r)

/-- `trap_filter` kernel (`trap_filters.cpp` lines 30-46), output column
`i`, row `r`, for the `T_time = int` instantiations (so
`rise_int = int(round(rise)) = rise` and the four loop regions are exactly
`[1,rise)`, `[rise, rise+flat)`, `[rise+flat, 2*rise+flat)` and
`[2*rise+flat, cols)`).  Column 0 is
`trap.col(0) = not_nan.select(wf_in.col(0), NAN)`.  Negative read indices
cannot occur in the parameter range the claims constrain (`rise >= 1`,
`flat >= 0`); outside it the C++ accesses out-of-bounds memory. -/
def trap_filter {K : Type} [Field K] (n : ℕ) (w : ℕ → ℕ → FP K)
    (rise flat : ℤ) : ℕ → ℕ → FP K
  | 0 => fun r => if allFinite n (w r) then w r 0 else .nonfin
  | i + 1 => fun r =>
      let j : ℤ := (i : ℤ) + 1
      let t := trap_filter n w rise flat i r
      if j < rise then t + w r (i + 1)
      else if j < rise + flat then t + w r (i + 1) - w r (j - rise).toNat
      else if j < 2 * rise + flat then
        t + w r (i + 1) - w r (j - rise).toNat - w r (j - rise - flat).toNat
      else
        t + w r (i + 1) - w r (j - rise).toNat - w r (j - rise - flat).toNat
          + w r (j - 2 * rise - flat).toNat

/-- `trap_norm` kernel (`trap_filters.cpp` lines 82-99): identical region
structure to `trap_filter`, but every recurrence step is divided by `rise`
(the whole right-hand side, not just the increment).  The initial
`trap.col(0) = wf_in.col(0)` (line 83) is immediately overwritten by the
NaN-select (line 89), so column 0 is the select value. -/
def trap_norm {K : Type} [Field K] [DecidableEq K] (n : ℕ)
    (w : ℕ → ℕ → FP K) (rise flat : ℤ) : ℕ → ℕ → FP K
  | 0 => fun r => if allFinite n (w r) then w r 0 else .nonfin
  | i + 1 => fun r =>
      let j : ℤ := (i : ℤ) + 1
      let t := trap_norm n w rise flat i r
      if j < rise then (t + w r (i + 1)).divs (rise : K)
      else if j < rise + flat then
        (t + w r (i + 1) - w r (j - rise).toNat).divs (rise : K)
      else if j < 2 * rise + flat then
        (t + w r (i + 1) - w r (j - rise).toNat
          - w r (j - rise - flat).toNat).divs (rise : K)
      else
        (t + w r (i + 1) - w r (j - rise).toNat - w r (j - rise - flat).toNat
          + w r (j - 2 * rise - flat).toNat).divs (rise : K)

/-- Row-wise sum of the first `n` samples (the reduction inside
`w_in.rowwise().mean()`). -/
def fpSum {K : Type} [Field K] (n : ℕ) (x : ℕ → FP K) : FP K :=
  ((List.range n).map x).foldr FP.add (.fin 0)

/-- `mean` kernel (`mean.cpp` lines 15-18): `a_out = w_in.rowwise().mean()`,
i.e. per row, the sum of the `n` samples divided by `n`. -/
def mean {K : Type} [Field K] [DecidableEq K] (n : ℕ)
    (w : ℕ → ℕ → FP K) : ℕ → FP K :=
  fun r => (fpSum n (w r)).divs (n : K)

/-- The input column indices (as integers, before the C++ pointer
arithmetic) that `trap_filter` reads while computing output column `i`,
following the four loop regions of `trap_filters.cpp` lines 36-45.
Column 0 additionally reads every column through
`wf_in.isFinite().rowwise().all()`, whose indices `0..n-1` are in bounds
by construction. -/
def trapReadIdx (rise flat : ℤ) (i : ℕ) : List ℤ :=
  if i = 0 then [0]
  else if (i : ℤ) < rise then [(i : ℤ)]
  else if (i : ℤ) < rise + flat then [(i : ℤ), (i : ℤ) - rise]
  else if (i : ℤ) < 2 * rise + flat then
    [(i : ℤ), (i : ℤ) - rise, (i : ℤ) - rise - flat]
  else
    [(i : ℤ), (i : ℤ) - rise, (i : ℤ) - rise - flat,
      (i : ℤ) - 2 * rise - flat]

/-! ## Argument metadata: the `arg_info` specializations -/

/-- Which `arg_info` specialization describes an argument:
`plainScalar` is the primary template `arg_info<T>` (a plain arithmetic
argument such as `rise`), and the other four are the specializations for
`wfblock_ref`, `const_wfblock_ref`, `scalarblock_ref` and
`const_scalarblock_ref`. -/
inductive ArgKind where
  | plainScalar
  | wfRef
  | constWfRef
  | scalarBlkRef
  | constScalarBlkRef
deriving DecidableEq, Repr

/-- Registration-time metadata of one argument: its specialization kind,
`get_typechar<dtype>()`, `sizeof(dtype)` and the `Align` template
parameter (64 for the `Aligned` variants, 0 for `Unaligned`). -/
structure ArgInfo where
  kind : ArgKind
  dtypeChar : ℕ
  elemSize : ℕ
  align : ℕ
deriving DecidableEq, Repr

namespace ArgInfo

/-- `arg_info<..>::blocksize`: 0 for a plain scalar, otherwise the ref
type's `RowsAtCompileTime`, i.e. `Align>0 ? Align/sizeof(T) : 1`. -/
def blocksize (a : ArgInfo) : ℕ :=
  match a.kind with
  | .plainScalar => 0
  | _ => if 0 < a.align then a.align / a.elemSize else 1

/-- `arg_info<..>::has_inner_dim`: true exactly for the waveform-block
reference types. -/
def hasInnerDim (a : ArgInfo) : Bool :=
  match a.kind with
  | .wfRef => true
  | .constWfRef => true
  | _ => false

/-- `arg_info<..>::is_const`: true for the plain scalar and the two
`const_` reference types. -/
def is_const (a : ArgInfo) : Bool :=
  match a.kind with
  | .plainScalar => true
  | .constWfRef => true
  | .constScalarBlkRef => true
  | _ => false

/-- `arg_info<..>::is_aligned(args, outer_dim, outer_step)`, translated
per specialization from `eigen_ufunc.hh`:
- plain scalar (lines 85-86): `outer_step == 0`;
- `wfblock_ref` / `const_wfblock_ref` / `scalarblock_ref` (lines 104-107,
  125-128, 146-149): pointer `% Align == 0 && outer_dim % blocksize == 0
  && outer_step == sizeof(T)`;
- `const_scalarblock_ref` (lines 167-171): the same conjunction
  `|| outer_step == 0`.
`addr` is the numeric value of the `args` pointer; `outer_step` is the
per-argument loop stride `steps[i]` that `execute_ufunc` passes in. -/
def is_aligned (a : ArgInfo) (addr outer_dim : ℕ) (outer_step : ℤ) : Bool :=
  match a.kind with
  | .plainScalar => outer_step == 0
  | .constScalarBlkRef =>
      (addr % a.align == 0 && outer_dim % a.blocksize == 0
        && outer_step == (a.elemSize : ℤ)) || outer_step == 0
  | _ =>
      addr % a.align == 0 && outer_dim % a.blocksize == 0
        && outer_step == (a.elemSize : ℤ)

end ArgInfo

/-! ## Dispatch engine: `execute_ufunc` -/

/-- One call-time argument of `execute_ufunc`: its `arg_info` metadata,
the numeric value of its buffer base pointer `args[i]`, and its
per-argument outer loop stride `steps[i]`. -/
structure CallArg where
  info : ArgInfo
  addr : ℕ
  outer_step : ℤ
deriving DecidableEq, Repr

/-- `int blocksize = std::max({arg_info<T_align>::blocksize...});`
(`eigen_ufunc.hh` line 202). -/
def maxBlocksize (cargs : List CallArg) : ℕ :=
  cargs.foldr (fun a m => max a.info.blocksize m) 0

/-- The fold expression of `eigen_ufunc.hh` line 207: every argument's
blocksize is 0 or equal to the call's blocksize, and every argument is
memory-aligned. -/
def alignedCheck (cargs : List CallArg) (outer_dim : ℕ) : Bool :=
  cargs.all fun a =>
    (a.info.blocksize == 0 || a.info.blocksize == maxBlocksize cargs)
      && a.info.is_aligned a.addr outer_dim a.outer_step

/-- The waveform indices at which the aligned loop
`for(int i_wf=0; i_wf<dims[0]; i_wf += blocksize)` invokes the batched
kernel: `0, bs, 2*bs, ...` while `< n`, i.e. `ceil(n/bs)` iterations. -/
def alignedStarts (n bs : ℕ) : List ℕ :=
  (List.range ((n + bs - 1) / bs)).map (· * bs)

/-- The aligned path of `execute_ufunc` (`eigen_ufunc.hh` lines 209-212),
abstracted over the kernel.  `F W P r` is output row `r` of one batched
kernel invocation whose views expose waveform `W q` (and per-waveform
scalar `P q`) at block row `q` — `get_arg` maps row `q` of the block
starting at `i_wf` to waveform `i_wf + q`.  The result is the list of
(waveform index, output) pairs written by all invocations. -/
def runAligned {A Q β : Type} (bs n : ℕ) (F : (ℕ → A) → (ℕ → Q) → ℕ → β)
    (w : ℕ → A) (p : ℕ → Q) : List (ℕ × β) :=
  (alignedStarts n bs).flatMap fun s =>
    (List.range bs).map fun r =>
      (s + r, F (fun q => w (s + q)) (fun q => p (s + q)) r)

/-- The fallback path of `execute_ufunc` (`eigen_ufunc.hh` lines 213-217):
`for(int i_wf=0; i_wf<dims[0]; i_wf++)` invokes the unaligned kernel once
per waveform with a 1-row view of waveform `i_wf`. -/
def runFallback {A Q β : Type} (n : ℕ) (F : (ℕ → A) → (ℕ → Q) → ℕ → β)
    (w : ℕ → A) (p : ℕ → Q) : List (ℕ × β) :=
  (List.range n).map fun j => (j, F (fun _ => w j) (fun _ => p j) 0)

/-- `execute_ufunc` (`eigen_ufunc.hh` lines 199-218): evaluate the
alignment gate once per call, then drive either the batched loop or the
per-waveform loop.  The aligned and unaligned C++ function pointers are
the same template body instantiated at different block sizes, so both
paths run the same abstract kernel `F`. -/
def execute_ufunc {A Q β : Type} (cargs : List CallArg) (outer_dim : ℕ)
    (F : (ℕ → A) → (ℕ → Q) → ℕ → β) (w : ℕ → A) (p : ℕ → Q) :
    List (ℕ × β) :=
  if alignedCheck cargs outer_dim then
    runAligned (maxBlocksize cargs) outer_dim F w p
  else
    runFallback outer_dim F w p

/-! ## Signature deriver and registry -/

/-- `ufunc_signature` (`eigen_ufunc.hh` lines 221-226), with the type-code
string as a list. -/
structure ufunc_signature where
  fTypes : List ℕ
  fNargs : ℕ
  fNin : ℕ
  fNout : ℕ
deriving DecidableEq, Repr

/-- One conjunct of the compatibility assertion in `get_signature`: the
aligned and unaligned argument at one position agree on element-type tag,
`has_inner_dim` and constness. -/
def compatibleArg (x y : ArgInfo) : Bool :=
  x.dtypeChar == y.dtypeChar && x.hasInnerDim == y.hasInnerDim
    && x.is_const == y.is_const

/-- `get_signature` (`eigen_ufunc.hh` lines 229-245): assert the two
variants have the same argument count and position-wise compatible
argument types (a fatal compile/load-time error otherwise, modelled as
`none`), then derive `fNargs` = argument count, `fNin` = number of const
arguments, `fNout = fNargs - fNin`, and the ordered type-code list. -/
def get_signature (al ul : List ArgInfo) : Option ufunc_signature :=
  if al.length == ul.length
      && (al.zip ul).all (fun q => compatibleArg q.1 q.2) then
    some { fTypes := al.map (·.dtypeChar)
           fNargs := al.length
           fNin := al.countP (·.is_const)
           fNout := al.length - al.countP (·.is_const) }
  else none

/-- The arity accumulator fields of `ufunc_implementation`
(`eigen_ufunc.hh` lines 260-290). -/
structure ImplAcc where
  fNargs : ℕ
  fNin : ℕ
  fNout : ℕ
deriving DecidableEq, Repr

/-- One iteration of the `ufunc_implementation` constructor loop
(`eigen_ufunc.hh` lines 272-288): take over any still-zero arity field
from the current implementation, then `assert` that all three fields
match it (a fatal registration-time error otherwise, modelled as
`none`). -/
def implStep (acc : ImplAcc) (s : ufunc_signature) : Option ImplAcc :=
  let na := if acc.fNargs = 0 then s.fNargs else acc.fNargs
  let ni := if acc.fNin = 0 then s.fNin else acc.fNin
  let no := if acc.fNout = 0 then s.fNout else acc.fNout
  if na = s.fNargs ∧ ni = s.fNin ∧ no = s.fNout then
    some ⟨na, ni, no⟩
  else
    none

/-- The `ufunc_implementation` constructor (`eigen_ufunc.hh` lines
269-289) restricted to its arity bookkeeping: fold the per-implementation
signatures through `implStep`, starting from zero-initialized fields. -/
def ufunc_implementation (l : List ufunc_signature) : Option ImplAcc :=
  l.foldlM implStep ⟨0, 0, 0⟩

/-! ## Basic lemmas about sample values -/

namespace FP

variable {K : Type}

@[simp] theorem fin_add_fin [Field K] (a b : K) : (fin a + fin b) = fin (a + b) := rfl

@[simp] theorem fin_sub_fin [Field K] (a b : K) : (fin a - fin b) = fin (a - b) := rfl

@[simp] theorem fin_mul_fin [Field K] (a b : K) : (fin a * fin b) = fin (a * b) := rfl

@[simp] theorem nonfin_add [Field K] (v : FP K) : (nonfin + v) = nonfin := by
  cases v <;> rfl

@[simp] theorem nonfin_sub [Field K] (v : FP K) : (nonfin - v) = nonfin := by
  cases v <;> rfl

@[simp] theorem nonfin_mul [Field K] (v : FP K) : (nonfin * v) = nonfin := by
  cases v <;> rfl

@[simp] theorem add_nonfin [Field K] (v : FP K) : (v + nonfin) = nonfin := by
  cases v <;> rfl

@[simp] theorem sub_nonfin [Field K] (v : FP K) : (v - nonfin) = nonfin := by
  cases v <;> rfl

@[simp] theorem mul_nonfin [Field K] (v : FP K) : (v * nonfin) = nonfin := by
  cases v <;> rfl

@[simp] theorem nonfin_divs [Field K] [DecidableEq K] (r : K) :
    (nonfin : FP K).divs r = nonfin := rfl

@[simp] theorem isFin_fin (a : K) : (fin a).isFin = true := rfl

@[simp] theorem isFin_nonfin : (nonfin : FP K).isFin = false := rfl

theorem divs_fin [Field K] [DecidableEq K] (a : K) {r : K} (hr : r ≠ 0) :
    (fin a).divs r = fin (a / r) := by
  simp [divs, hr]

theorem exists_fin_of_isFin {v : FP K} (h : v.isFin = true) : ∃ a, v = fin a := by
  cases v with
  | fin a => exact ⟨a, rfl⟩
  | nonfin => simp [isFin] at h

theorem eq_nonfin_of_not_isFin {v : FP K} (h : v.isFin = false) : v = nonfin := by
  cases v with
  | fin a => simp [isFin] at h
  | nonfin => rfl

theorem isFin_add [Field K] {v u : FP K} (hv : v.isFin = true) (hu : u.isFin = true) :
    (v + u).isFin = true := by
  cases v <;> cases u <;> simp_all

theorem isFin_sub [Field K] {v u : FP K} (hv : v.isFin = true) (hu : u.isFin = true) :
    (v - u).isFin = true := by
  cases v <;> cases u <;> simp_all

theorem isFin_divs [Field K] [DecidableEq K] {v : FP K} {r : K}
    (hv : v.isFin = true) (hr : r ≠ 0) : (v.divs r).isFin = true := by
  cases v with
  | fin a => simp [divs, hr]
  | nonfin => simp at hv

/-- Multiplying a scalar-divided sample back by the (nonzero) scalar
recovers the sample. -/
theorem mul_divs_cancel [Field K] [DecidableEq K] {c : K} (hc : c ≠ 0)
    (v : FP K) : fin c * v.divs c = v := by
  cases v with
  | fin a => simp [divs, hc, mul_div_cancel₀]
  | nonfin => simp

/-- Reassociation `(x + y) - z = x + (y - z)`; holds unconditionally
because `nonfin` absorbs on both sides. -/
theorem add_sub_shift [Field K] (x y z : FP K) :
    (x + y) - z = x + (y - z) := by
  cases x <;> cases y <;> cases z <;> simp [add_sub_assoc]

/-- Reassociation `(x + y) + z = x + (y + z)`. -/
theorem add_add_shift [Field K] (x y z : FP K) :
    (x + y) + z = x + (y + z) := by
  cases x <;> cases y <;> cases z <;> simp [add_assoc]

/-- With `t` finite, `u + ((t + s) - t) = u + s`. -/
theorem add_sub_self_mid [Field K] {t : FP K} (ht : t.isFin = true)
    (u s : FP K) : u + ((t + s) - t) = u + s := by
  obtain ⟨a, rfl⟩ := exists_fin_of_isFin ht
  cases u <;> cases s <;> simp

end FP

theorem allFinite_iff {K : Type} (n : ℕ) (x : ℕ → FP K) :
    allFinite n x = true ↔ ∀ i < n, (x i).isFin = true := by
  simp [allFinite, List.mem_range]

theorem allFinite_congr {K : Type} {n : ℕ} {x y : ℕ → FP K}
    (h : ∀ i < n, x i = y i) : allFinite n x = allFinite n y := by
  have hiff : allFinite n x = true ↔ allFinite n y = true := by
    rw [allFinite_iff, allFinite_iff]
    constructor <;> intro hh i hi
    · rw [← h i hi]; exact hh i hi
    · rw [h i hi]; exact hh i hi
  cases hax : allFinite n x with
  | true => exact (hiff.mp hax).symm
  | false =>
    cases hay : allFinite n y with
    | true => rw [← hiff.mpr hay, hax]
    | false => rfl

theorem allFinite_eq_false_of {K : Type} {n k : ℕ} {x : ℕ → FP K}
    (hk : k < n) (h : (x k).isFin = false) : allFinite n x = false := by
  cases hax : allFinite n x with
  | true => exact absurd ((allFinite_iff n x).mp hax k hk) (by simp [h])
  | false => rfl

/-! ## Non-finite propagation in the kernels -/

theorem pole_zero_nonfin {K : Type} [Field K] (E : K → K) {n : ℕ}
    {w : ℕ → ℕ → FP K} (tau : ℕ → FP K) {r : ℕ}
    (h : allFinite n (w r) = false) :
    ∀ i, pole_zero E n w tau i r = FP.nonfin := by
  intro i
  induction i with
  | zero => simp [pole_zero, h]
  | succ i ih => simp [pole_zero, ih]

theorem trap_filter_nonfin {K : Type} [Field K] {n : ℕ}
    {w : ℕ → ℕ → FP K} (rise flat : ℤ) {r : ℕ}
    (h : allFinite n (w r) = false) :
    ∀ i, trap_filter n w rise flat i r = FP.nonfin := by
  intro i
  induction i with
  | zero => simp [trap_filter, h]
  | succ i ih => simp [trap_filter, ih]

theorem trap_norm_nonfin {K : Type} [Field K] [DecidableEq K] {n : ℕ}
    {w : ℕ → ℕ → FP K} (rise flat : ℤ) {r : ℕ}
    (h : allFinite n (w r) = false) :
    ∀ i, trap_norm n w rise flat i r = FP.nonfin := by
  intro i
  induction i with
  | zero => simp [trap_norm, h]
  | succ i ih => simp [trap_norm, ih]

/-- C7: for `pole_zero`, `trap_filter` and `trap_norm`: for every input
sequence (row `r`), if any sample `k < n` of that sequence is non-finite,
then every sample `i < n` of the corresponding output sequence is
non-finite. -/
theorem nonfinite_input_propagates {K : Type} [Field K] [DecidableEq K]
    (n r k : ℕ) (hk : k < n) :
    (∀ (w : ℕ → ℕ → FP ℝ) (tau : ℕ → FP ℝ), (w r k).isFin = false →
      ∀ i < n, (pole_zero Real.exp n w tau i r).isFin = false)
    ∧ (∀ (w : ℕ → ℕ → FP K) (rise flat : ℤ), (w r k).isFin = false →
      ∀ i < n, (trap_filter n w rise flat i r).isFin = false)
    ∧ (∀ (w : ℕ → ℕ → FP K) (rise flat : ℤ), (w r k).isFin = false →
      ∀ i < n, (trap_norm n w rise flat i r).isFin = false) := by
  refine ⟨fun w tau h i _ => ?_, fun w rise flat h i _ => ?_,
    fun w rise flat h i _ => ?_⟩
  · rw [pole_zero_nonfin Real.exp tau (allFinite_eq_false_of hk h) i]; rfl
  · rw [trap_filter_nonfin rise flat (allFinite_eq_false_of hk h) i]; rfl
  · rw [trap_norm_nonfin rise flat (allFinite_eq_false_of hk h) i]; rfl

/-- Witness for C7 at a concrete input: waveform `[nonfin, 1]`, `n = 2`,
checking output sample 1 of `trap_filter` with `rise = 1`, `flat = 0`. -/
theorem nonfinite_input_propagates_witness :
    (0 : ℕ) < 2
    ∧ (((fun (_ i : ℕ) => if i = 0 then (FP.nonfin : FP ℚ) else FP.fin 1) 0 0).isFin
        = false)
    ∧ (trap_filter (K := ℚ) 2
        (fun _ i => if i = 0 then FP.nonfin else FP.fin 1) 1 0 1 0).isFin = false := by
  refine ⟨by decide, by decide, ?_⟩
  exact (nonfinite_input_propagates (K := ℚ) 2 0 0 (by decide)).2.1
    (fun _ i => if i = 0 then FP.nonfin else FP.fin 1) 1 0 (by decide) 1 (by decide)

/-! ## Pole-zero recurrence (C8) -/

theorem allFinite_const_fin {K : Type} (n : ℕ) (c : K) :
    allFinite n (fun _ => FP.fin c) = true := by
  simp [allFinite]

theorem pole_zero_const10 (t : ℝ) (r : ℕ) :
    ∀ i, pole_zero Real.exp 4 (fun _ _ => FP.fin 10) (fun _ => FP.fin t) i r
      = FP.fin (10 + 10 * i * (1 - Real.exp (-t⁻¹))) := by
  intro i
  induction i with
  | zero => simp [pole_zero, allFinite_const_fin]
  | succ i ih =>
    simp only [pole_zero, ih, pzc, FP.fin_add_fin, FP.fin_mul_fin, FP.fin_sub_fin]
    congr 1
    push_cast
    ring

/-- C8: for an all-finite input row and a finite nonzero per-sequence
scalar tau, `pole_zero` outputs `y 0 = x 0` and
`y (i+1) = y i + x (i+1) - x i * exp (-1/tau)`.  On the flat input
`[10, 10, 10, 10]` the output is `10 + 10*i*(1 - exp (-1/tau))` at index
`i`, and `exp (-1/tau)` tends to 1 as `tau` grows, so the output tends to
the flat input `[10, 10, 10, 10]`. -/
theorem pole_zero_recurrence (n : ℕ) (w : ℕ → ℕ → FP ℝ) (t : ℝ) (r : ℕ)
    (ht : t ≠ 0) (hw : allFinite n (w r) = true) :
    (pole_zero Real.exp n w (fun _ => FP.fin t) 0 r = w r 0)
    ∧ (∀ i : ℕ, pole_zero Real.exp n w (fun _ => FP.fin t) (i + 1) r
        = pole_zero Real.exp n w (fun _ => FP.fin t) i r + w r (i + 1)
          - w r i * FP.fin (Real.exp (-t⁻¹)))
    ∧ (∀ i < 4, pole_zero Real.exp 4 (fun _ _ => FP.fin 10) (fun _ => FP.fin t) i r
        = FP.fin (10 + 10 * i * (1 - Real.exp (-t⁻¹))))
    ∧ Filter.Tendsto (fun s : ℝ => Real.exp (-s⁻¹)) Filter.atTop (nhds 1) := by
  refine ⟨by simp [pole_zero, hw], fun i => by simp [pole_zero, pzc],
    fun i _ => pole_zero_const10 t r i, ?_⟩
  have h1 : Filter.Tendsto (fun s : ℝ => -s⁻¹) Filter.atTop (nhds 0) := by
    simpa using (tendsto_inv_atTop_zero (𝕜 := ℝ)).neg
  have h2 := (Real.continuous_exp.tendsto 0).comp h1
  simpa using h2

/-- Witness for C8 at `n = 4`, the flat input `[10,10,10,10]` and
`tau = 1`. -/
theorem pole_zero_recurrence_witness :
    (1 : ℝ) ≠ 0
    ∧ allFinite 4 ((fun (_ _ : ℕ) => FP.fin (10 : ℝ)) 0) = true
    ∧ (pole_zero Real.exp 4 (fun _ _ => FP.fin (10 : ℝ))
        (fun _ => FP.fin 1) 0 0 = FP.fin 10) := by
  refine ⟨one_ne_zero, allFinite_const_fin 4 10, ?_⟩
  exact (pole_zero_recurrence 4 (fun _ _ => FP.fin 10) 1 0 one_ne_zero
    (allFinite_const_fin 4 10)).1

/-! ## Trapezoidal filter recurrence (C9) -/

/-- C9: for an all-finite input row, `trap_filter` starts from
`t 0 = x 0` and follows the four-segment moving-sum recurrence over the
`[1,rise)`, `[rise,rise+flat)`, `[rise+flat,2*rise+flat)` and tail
regions, where the subtracted/re-added taps sit at `i - rise`,
`i - rise - flat` and `i - 2*rise - flat`; with `rise = 2`, `flat = 1` on
`[0,1,2,3,4,5,6,7]` it produces the hand-derived values
`[0,1,3,5,6,6,6,6]`. -/
theorem trap_filter_recurrence_example {K : Type} [Field K] (n : ℕ)
    (w : ℕ → ℕ → FP K) (rise flat : ℤ) (r : ℕ)
    (hw : allFinite n (w r) = true) :
    (trap_filter n w rise flat 0 r = w r 0)
    ∧ (∀ i : ℕ, 1 ≤ i → trap_filter n w rise flat i r =
        if (i : ℤ) < rise then
          trap_filter n w rise flat (i - 1) r + w r i
        else if (i : ℤ) < rise + flat then
          trap_filter n w rise flat (i - 1) r + w r i
            - w r ((i : ℤ) - rise).toNat
        else if (i : ℤ) < 2 * rise + flat then
          trap_filter n w rise flat (i - 1) r + w r i
            - w r ((i : ℤ) - rise).toNat - w r ((i : ℤ) - rise - flat).toNat
        else
          trap_filter n w rise flat (i - 1) r + w r i
            - w r ((i : ℤ) - rise).toNat - w r ((i : ℤ) - rise - flat).toNat
            + w r ((i : ℤ) - 2 * rise - flat).toNat)
    ∧ (∀ i < 8,
        trap_filter (K := ℚ) 8 (fun _ q => FP.fin (q : ℚ)) 2 1 i 0
          = FP.fin (([0, 1, 3, 5, 6, 6, 6, 6] : List ℚ).getD i 0)) := by
  refine ⟨by simp [trap_filter, hw], fun i hi => ?_, fun i hi => ?_⟩
  · obtain ⟨q, rfl⟩ : ∃ q, i = q + 1 := ⟨i - 1, by omega⟩
    simp only [trap_filter, Nat.add_sub_cancel]
    push_cast
    rfl
  · interval_cases i <;>
      norm_num [trap_filter, allFinite, List.range_succ, Int.toNat]

/-- Witness for C9 with the concrete example input. -/
theorem trap_filter_recurrence_example_witness :
    allFinite 8 ((fun (_ q : ℕ) => FP.fin (q : ℚ)) 0) = true
    ∧ trap_filter (K := ℚ) 8 (fun _ q => FP.fin (q : ℚ)) 2 1 7 0 = FP.fin 6 := by
  refine ⟨by decide, ?_⟩
  have h := (trap_filter_recurrence_example (K := ℚ) 8
    (fun _ q => FP.fin (q : ℚ)) 2 1 0 (by decide)).2.2 7 (by decide)
  simpa using h

/-! ## trap_norm versus trap_filter (C3) -/

/-- C3 counterexample: with `rise = 2`, `flat = 1` and input row
`[1, 2, 3, 4]`, `trap_norm` at index 2 gives `(3/2 + 3 - 1)/2 = 7/4`,
while `trap_filter` at index 2 divided by `rise` gives `5/2`: `trap_norm`
divides every recurrence step by `rise`, so its output is not
`trap_filter`'s output divided by `rise`. -/
theorem trap_norm_ne_trap_filter_div :
    trap_norm (K := ℚ) 4 (fun _ q => FP.fin ((q : ℚ) + 1)) 2 1 2 0
      = FP.fin (7 / 4)
    ∧ (trap_filter (K := ℚ) 4 (fun _ q => FP.fin ((q : ℚ) + 1)) 2 1 2 0).divs 2
      = FP.fin (5 / 2)
    ∧ trap_norm (K := ℚ) 4 (fun _ q => FP.fin ((q : ℚ) + 1)) 2 1 2 0
      ≠ (trap_filter (K := ℚ) 4 (fun _ q => FP.fin ((q : ℚ) + 1)) 2 1 2 0).divs 2 := by
  refine ⟨?_, ?_, ?_⟩ <;>
    norm_num [trap_norm, trap_filter, allFinite, List.range_succ, Int.toNat,
      FP.divs]

theorem trap_filter_isFin {K : Type} [Field K] {n : ℕ} {w : ℕ → ℕ → FP K}
    {rise flat : ℤ} {r : ℕ} (h1 : 1 ≤ rise) (h2 : 0 ≤ flat)
    (hw : allFinite n (w r) = true) :
    ∀ i < n, (trap_filter n w rise flat i r).isFin = true := by
  have hfin : ∀ k < n, (w r k).isFin = true := (allFinite_iff n (w r)).mp hw
  intro i
  induction i with
  | zero => intro h0; simp [trap_filter, hw]; exact hfin 0 h0
  | succ i ih =>
    intro hin
    have hi : i < n := by omega
    simp only [trap_filter]
    split
    · exact FP.isFin_add (ih hi) (hfin _ hin)
    · split
      · refine FP.isFin_sub (FP.isFin_add (ih hi) (hfin _ hin)) (hfin _ ?_)
        omega
      · split
        · refine FP.isFin_sub (FP.isFin_sub (FP.isFin_add (ih hi)
            (hfin _ hin)) (hfin _ ?_)) (hfin _ ?_) <;> omega
        · refine FP.isFin_add (FP.isFin_sub (FP.isFin_sub
            (FP.isFin_add (ih hi) (hfin _ hin)) (hfin _ ?_)) (hfin _ ?_))
            (hfin _ ?_) <;> omega

theorem trap_norm_isFin {K : Type} [Field K] [DecidableEq K] {n : ℕ}
    {w : ℕ → ℕ → FP K} {rise flat : ℤ} {r : ℕ} (h1 : 1 ≤ rise)
    (h2 : 0 ≤ flat) (hr : ((rise : ℤ) : K) ≠ 0)
    (hw : allFinite n (w r) = true) :
    ∀ i < n, (trap_norm n w rise flat i r).isFin = true := by
  have hfin : ∀ k < n, (w r k).isFin = true := (allFinite_iff n (w r)).mp hw
  intro i
  induction i with
  | zero => intro h0; simp [trap_norm, hw]; exact hfin 0 h0
  | succ i ih =>
    intro hin
    have hi : i < n := by omega
    simp only [trap_norm]
    split
    · exact FP.isFin_divs (FP.isFin_add (ih hi) (hfin _ hin)) hr
    · split
      · refine FP.isFin_divs (FP.isFin_sub (FP.isFin_add (ih hi)
          (hfin _ hin)) (hfin _ ?_)) hr
        omega
      · split
        · refine FP.isFin_divs (FP.isFin_sub (FP.isFin_sub (FP.isFin_add
            (ih hi) (hfin _ hin)) (hfin _ ?_)) (hfin _ ?_)) hr <;> omega
        · refine FP.isFin_divs (FP.isFin_add (FP.isFin_sub (FP.isFin_sub
            (FP.isFin_add (ih hi) (hfin _ hin)) (hfin _ ?_)) (hfin _ ?_))
            (hfin _ ?_)) hr <;> omega

/-- C3 amended: `trap_norm` applies the same four-segment increments as
`trap_filter`, but divides by `rise` at every recurrence step rather than
dividing `trap_filter`'s output once: for an all-finite row, `rise >= 1`,
`flat >= 0` and `rise` nonzero in the sample field, for every
`1 <= i < n`,
`rise * u i = u (i-1) + (t i - t (i-1))`
where `u` is `trap_norm`'s output and `t` is `trap_filter`'s output.  In
general `u i` differs from `t i / rise` (see the counterexample). -/
theorem trap_norm_step_relation {K : Type} [Field K] [DecidableEq K]
    {n : ℕ} (w : ℕ → ℕ → FP K) {rise flat : ℤ} (r : ℕ)
    (h1 : 1 ≤ rise) (h2 : 0 ≤ flat) (hr : ((rise : ℤ) : K) ≠ 0)
    (hw : allFinite n (w r) = true) :
    ∀ i : ℕ, 1 ≤ i → i < n →
      FP.fin ((rise : ℤ) : K) * trap_norm n w rise flat i r
        = trap_norm n w rise flat (i - 1) r
          + (trap_filter n w rise flat i r - trap_filter n w rise flat (i - 1) r) := by
  have hfin : ∀ k < n, (w r k).isFin = true := (allFinite_iff n (w r)).mp hw
  intro i hi hin
  obtain ⟨q, rfl⟩ : ∃ q, i = q + 1 := ⟨i - 1, by omega⟩
  have hq : q < n := by omega
  obtain ⟨ua, hu⟩ := FP.exists_fin_of_isFin (trap_norm_isFin h1 h2 hr hw q hq)
  obtain ⟨ta, htf⟩ := FP.exists_fin_of_isFin (trap_filter_isFin h1 h2 hw q hq)
  obtain ⟨a1, ha1⟩ := FP.exists_fin_of_isFin (hfin (q + 1) hin)
  simp only [trap_norm, trap_filter, Nat.add_sub_cancel]
  by_cases hb1 : ((q : ℤ) + 1 < rise)
  · simp only [if_pos hb1, hu, htf, ha1, FP.fin_add_fin]
    rw [FP.divs_fin _ hr]
    simp only [FP.fin_mul_fin, FP.fin_add_fin, FP.fin_sub_fin]
    congr 1
    field_simp
  · by_cases hb2 : ((q : ℤ) + 1 < rise + flat)
    · have hx : ((q : ℤ) + 1 - rise).toNat < n := by omega
      obtain ⟨b, hb⟩ := FP.exists_fin_of_isFin (hfin _ hx)
      simp only [if_neg hb1, if_pos hb2, hu, htf, ha1, hb, FP.fin_add_fin,
        FP.fin_sub_fin]
      rw [FP.divs_fin _ hr]
      simp only [FP.fin_mul_fin, FP.fin_add_fin, FP.fin_sub_fin]
      congr 1
      field_simp
      ring
    · by_cases hb3 : ((q : ℤ) + 1 < 2 * rise + flat)
      · have hx : ((q : ℤ) + 1 - rise).toNat < n := by omega
        have hy : ((q : ℤ) + 1 - rise - flat).toNat < n := by omega
        obtain ⟨b, hb⟩ := FP.exists_fin_of_isFin (hfin _ hx)
        obtain ⟨c, hc⟩ := FP.exists_fin_of_isFin (hfin _ hy)
        simp only [if_neg hb1, if_neg hb2, if_pos hb3, hu, htf, ha1, hb, hc,
          FP.fin_add_fin, FP.fin_sub_fin]
        rw [FP.divs_fin _ hr]
        simp only [FP.fin_mul_fin, FP.fin_add_fin, FP.fin_sub_fin]
        congr 1
        field_simp
        ring
      · have hx : ((q : ℤ) + 1 - rise).toNat < n := by omega
        have hy : ((q : ℤ) + 1 - rise - flat).toNat < n := by omega
        have hz : ((q : ℤ) + 1 - 2 * rise - flat).toNat < n := by omega
        obtain ⟨b, hb⟩ := FP.exists_fin_of_isFin (hfin _ hx)
        obtain ⟨c, hc⟩ := FP.exists_fin_of_isFin (hfin _ hy)
        obtain ⟨d, hd⟩ := FP.exists_fin_of_isFin (hfin _ hz)
        simp only [if_neg hb1, if_neg hb2, if_neg hb3, hu, htf, ha1, hb, hc,
          hd, FP.fin_add_fin, FP.fin_sub_fin]
        rw [FP.divs_fin _ hr]
        simp only [FP.fin_mul_fin, FP.fin_add_fin, FP.fin_sub_fin]
        congr 1
        field_simp
        ring

/-- Witness for C3 amended, at the counterexample input `[1,2,3,4]`,
`rise = 2`, `flat = 1`, `i = 1`. -/
theorem trap_norm_step_relation_witness :
    (1 : ℤ) ≤ 2 ∧ (0 : ℤ) ≤ 1 ∧ (((2 : ℤ) : ℚ) ≠ 0)
    ∧ allFinite 4 ((fun (_ q : ℕ) => FP.fin ((q : ℚ) + 1)) 0) = true
    ∧ FP.fin ((2 : ℤ) : ℚ)
        * trap_norm (K := ℚ) 4 (fun _ q => FP.fin ((q : ℚ) + 1)) 2 1 1 0
      = trap_norm (K := ℚ) 4 (fun _ q => FP.fin ((q : ℚ) + 1)) 2 1 0 0
        + (trap_filter (K := ℚ) 4 (fun _ q => FP.fin ((q : ℚ) + 1)) 2 1 1 0
          - trap_filter (K := ℚ) 4 (fun _ q => FP.fin ((q : ℚ) + 1)) 2 1 0 0) := by
  refine ⟨by decide, by decide, by simp, by decide, ?_⟩
  exact trap_norm_step_relation (K := ℚ) (fun _ q => FP.fin ((q : ℚ) + 1)) 0
    (by decide) (by decide) (by simp) (by decide) 1 (by decide) (by decide)

/-! ## Index bounds for `trap_filter` (C10) -/

/-- C10: under the precondition `rise >= 1`, `flat >= 0` and
`2*rise + flat <= n`, (a) every input column index `trap_filter` reads
while computing any output column `i < n` lies in `[0, n)` (the written
column is `i < n` itself), and (b) consequently the output at every
column `i < n` depends only on input samples at columns `< n`: two inputs
agreeing on columns `0..n-1` of row `r` produce identical outputs.
`trap_filter` itself performs no bounds checking (the source marks bounds
checking as a TODO), so this precondition is what keeps every access
in-bounds. -/
theorem trap_filter_in_bounds {K : Type} [Field K] {n : ℕ}
    {rise flat : ℤ} (h1 : 1 ≤ rise) (h2 : 0 ≤ flat)
    (h3 : 2 * rise + flat ≤ (n : ℤ)) :
    (∀ i < n, ∀ z ∈ trapReadIdx rise flat i, 0 ≤ z ∧ z < (n : ℤ))
    ∧ (∀ (w v : ℕ → ℕ → FP K) (r : ℕ), (∀ k < n, w r k = v r k) →
        ∀ i < n, trap_filter n w rise flat i r = trap_filter n v rise flat i r) := by
  constructor
  · intro i hi z hz
    unfold trapReadIdx at hz
    split at hz
    · simp at hz
      omega
    · split at hz
      · simp at hz
        omega
      · split at hz
        · simp at hz
          rcases hz with h | h <;> omega
        · split at hz
          · simp at hz
            rcases hz with h | h | h <;> omega
          · simp at hz
            rcases hz with h | h | h | h <;> omega
  · intro w v r hagree i
    induction i with
    | zero =>
      intro h0
      have haf : allFinite n (w r) = allFinite n (v r) :=
        allFinite_congr hagree
      simp only [trap_filter, haf, hagree 0 h0]
    | succ i ih =>
      intro hin
      have hi : i < n := by omega
      simp only [trap_filter, ih hi, hagree (i + 1) hin]
      split
      · rfl
      · split
        · rw [hagree (((i : ℤ) + 1 - rise).toNat) (by omega)]
        · split
          · rw [hagree (((i : ℤ) + 1 - rise).toNat) (by omega),
              hagree (((i : ℤ) + 1 - rise - flat).toNat) (by omega)]
          · rw [hagree (((i : ℤ) + 1 - rise).toNat) (by omega),
              hagree (((i : ℤ) + 1 - rise - flat).toNat) (by omega),
              hagree (((i : ℤ) + 1 - 2 * rise - flat).toNat) (by omega)]

/-- Witness for C10 at `rise = 2`, `flat = 1`, `n = 8`: the taps of
output column 7 are `[7, 5, 4, 2]`, all in `[0, 8)`. -/
theorem trap_filter_in_bounds_witness :
    ((1 : ℤ) ≤ 2 ∧ (0 : ℤ) ≤ 1 ∧ (2 * 2 + 1 : ℤ) ≤ ((8 : ℕ) : ℤ))
    ∧ (∀ z ∈ trapReadIdx 2 1 7, 0 ≤ z ∧ z < ((8 : ℕ) : ℤ)) := by
  refine ⟨⟨by decide, by decide, by decide⟩, ?_⟩
  exact (trap_filter_in_bounds (K := ℚ) (by decide) (by decide)
    (by decide)).1 7 (by decide)

/-! ## Association-list lemmas for the dispatch loops -/

theorem lookup_append_some {β : Type} {l1 l2 : List (ℕ × β)} {a : ℕ} {b : β}
    (h : l1.lookup a = some b) : (l1 ++ l2).lookup a = some b := by
  induction l1 with
  | nil => simp [List.lookup] at h
  | cons hd tl ih =>
    obtain ⟨k, v⟩ := hd
    rw [List.cons_append, List.lookup_cons] at *
    cases hak : (a == k) with
    | true => simp only [hak] at h ⊢; exact h
    | false => simp only [hak] at h ⊢; exact ih h

theorem lookup_append_none {β : Type} {l1 : List (ℕ × β)} (l2 : List (ℕ × β))
    {a : ℕ} (h : l1.lookup a = none) :
    (l1 ++ l2).lookup a = l2.lookup a := by
  induction l1 with
  | nil => simp
  | cons hd tl ih =>
    obtain ⟨k, v⟩ := hd
    rw [List.cons_append, List.lookup_cons] at *
    cases hak : (a == k) with
    | true => simp only [hak] at h; simp at h
    | false => simp only [hak] at h ⊢; exact ih h

theorem lookup_block_none {β : Type} (G : ℕ → β) (s c j : ℕ)
    (h : j < s ∨ s + c ≤ j) :
    (((List.range c).map (fun q => (s + q, G q))).lookup j) = none := by
  induction c with
  | zero => simp [List.lookup]
  | succ c ih =>
    rw [List.range_succ, List.map_append]
    rw [lookup_append_none]
    · simp only [List.map_cons, List.map_nil, List.lookup_cons]
      have hne : (j == s + c) = false := by
        simp only [beq_eq_false_iff_ne, ne_eq]
        rcases h with h | h <;> omega
      simp [hne, List.lookup]
    · exact ih (by rcases h with h | h <;> [left; right] <;> omega)

/-- Looking up key `s + q`, `q < c`, in one block of pairs
`(s + 0, G 0), ..., (s + c - 1, G (c-1))`. -/
theorem lookup_block_some {β : Type} (G : ℕ → β) (s c j : ℕ)
    (h1 : s ≤ j) (h2 : j < s + c) :
    (((List.range c).map (fun q => (s + q, G q))).lookup j) = some (G (j - s)) := by
  induction c with
  | zero => omega
  | succ c ih =>
    rw [List.range_succ, List.map_append]
    by_cases hc : j < s + c
    · exact lookup_append_some (ih hc)
    · have hj : j = s + c := by omega
      rw [lookup_append_none _ (lookup_block_none G s c j (Or.inr (by omega)))]
      simp only [List.map_cons, List.map_nil, List.lookup_cons]
      have hbeq : (j == s + c) = true := by simp [hj]
      simp only [hbeq]
      subst hj
      simp [Nat.add_sub_cancel_left]

theorem lookup_rangeMap {β : Type} (H : ℕ → β) (n j : ℕ) (hj : j < n) :
    (((List.range n).map (fun q => (q, H q))).lookup j) = some (H j) := by
  have h := lookup_block_some H 0 n j (by omega) (by omega)
  simpa using h

theorem lookup_blocks_none {β : Type} (bs : ℕ) (G : ℕ → ℕ → β) :
    ∀ m j : ℕ, m * bs ≤ j →
      (((List.range m).flatMap
          (fun k => (List.range bs).map
            (fun q => (k * bs + q, G (k * bs) q)))).lookup j) = none := by
  intro m
  induction m with
  | zero => intro j _; simp [List.lookup]
  | succ c ih =>
    intro j hj
    rw [Nat.succ_mul] at hj
    rw [List.range_succ, List.flatMap_append]
    rw [lookup_append_none]
    · simp only [List.flatMap_cons, List.flatMap_nil, List.append_nil]
      exact lookup_block_none _ (c * bs) bs j (Or.inr (by omega))
    · exact ih j (by omega)

/-- Looking up waveform `k * bs + q` in the pairs produced by `m` batched
invocations of block size `bs`. -/
theorem lookup_blocks {β : Type} (bs : ℕ) (G : ℕ → ℕ → β) :
    ∀ m k q : ℕ, k < m → q < bs →
      (((List.range m).flatMap
          (fun a => (List.range bs).map
            (fun q' => (a * bs + q', G (a * bs) q')))).lookup
        (k * bs + q)) = some (G (k * bs) q) := by
  intro m
  induction m with
  | zero => intro k q hk _; omega
  | succ c ih =>
    intro k q hk hq
    rw [List.range_succ, List.flatMap_append]
    by_cases hkc : k < c
    · exact lookup_append_some (ih k q hkc hq)
    · have hke : k = c := by omega
      subst hke
      rw [lookup_append_none _ (lookup_blocks_none bs G k (k * bs + q) (by omega))]
      simp only [List.flatMap_cons, List.flatMap_nil, List.append_nil]
      have h := lookup_block_some (G (k * bs)) (k * bs) bs (k * bs + q)
        (by omega) (by omega)
      simpa using h

/-! ## Dispatch path equivalence (C1) and fallback coverage (C4) -/

theorem alignedStarts_eq (bs m : ℕ) (hbs : 0 < bs) :
    alignedStarts (bs * m) bs = (List.range m).map (· * bs) := by
  unfold alignedStarts
  congr 2
  have h1 : bs * m + bs - 1 = (bs - 1) + bs * m := by omega
  rw [h1, Nat.add_mul_div_left _ _ hbs, Nat.div_eq_of_lt (by omega)]
  omega

theorem runAligned_lookup {A Q β : Type} (bs m : ℕ)
    (F : (ℕ → A) → (ℕ → Q) → ℕ → β) (w : ℕ → A) (p : ℕ → Q)
    (hbs : 0 < bs) (k q : ℕ) (hk : k < m) (hq : q < bs) :
    (runAligned bs (bs * m) F w p).lookup (k * bs + q)
      = some (F (fun x => w (k * bs + x)) (fun x => p (k * bs + x)) q) := by
  unfold runAligned
  rw [alignedStarts_eq bs m hbs, List.flatMap_map]
  exact lookup_blocks bs
    (fun s q' => F (fun x => w (s + x)) (fun x => p (s + x)) q') m k q hk hq

theorem runFallback_lookup {A Q β : Type} (n : ℕ)
    (F : (ℕ → A) → (ℕ → Q) → ℕ → β) (w : ℕ → A) (p : ℕ → Q)
    (j : ℕ) (hj : j < n) :
    (runFallback n F w p).lookup j
      = some (F (fun _ => w j) (fun _ => p j) 0) := by
  unfold runFallback
  exact lookup_rangeMap (fun q => F (fun _ => w q) (fun _ => p q) 0) n j hj

/-- If the kernel computes each output row from that row's inputs alone
(row-wise), then for every waveform the batched loop and the per-waveform
loop produce the same output. -/
theorem aligned_eq_fallback {A Q β : Type} (bs n : ℕ)
    (F : (ℕ → A) → (ℕ → Q) → ℕ → β) (w : ℕ → A) (p : ℕ → Q)
    (hrow : ∀ (W : ℕ → A) (P : ℕ → Q) (q : ℕ),
      F W P q = F (fun _ => W q) (fun _ => P q) 0)
    (hbs : 0 < bs) (hdvd : bs ∣ n) (j : ℕ) (hj : j < n) :
    (runAligned bs n F w p).lookup j = (runFallback n F w p).lookup j := by
  obtain ⟨m, rfl⟩ := hdvd
  have hk : j / bs < m := Nat.div_lt_of_lt_mul hj
  have hq : j % bs < bs := Nat.mod_lt _ hbs
  have hdecomp : (j / bs) * bs + j % bs = j := by
    rw [Nat.mul_comm]; exact Nat.div_add_mod j bs
  conv_lhs => rw [← hdecomp]
  conv_rhs => rw [← hdecomp]
  rw [runAligned_lookup bs m F w p hbs (j / bs) (j % bs) hk hq]
  rw [runFallback_lookup (bs * m) F w p _ (by rw [hdecomp]; exact hj)]
  rw [hrow]

theorem pole_zero_rowwise {K : Type} [Field K] (E : K → K) (n : ℕ)
    (W : ℕ → ℕ → FP K) (T : ℕ → FP K) (q : ℕ) :
    ∀ i, pole_zero E n W T i q
      = pole_zero E n (fun _ => W q) (fun _ => T q) i 0 := by
  intro i
  induction i with
  | zero => rfl
  | succ i ih => simp only [pole_zero, ih]

theorem trap_filter_rowwise {K : Type} [Field K] (n : ℕ)
    (W : ℕ → ℕ → FP K) (rise flat : ℤ) (q : ℕ) :
    ∀ i, trap_filter n W rise flat i q
      = trap_filter n (fun _ => W q) rise flat i 0 := by
  intro i
  induction i with
  | zero => rfl
  | succ i ih => simp only [trap_filter, ih]

theorem trap_norm_rowwise {K : Type} [Field K] [DecidableEq K] (n : ℕ)
    (W : ℕ → ℕ → FP K) (rise flat : ℤ) (q : ℕ) :
    ∀ i, trap_norm n W rise flat i q
      = trap_norm n (fun _ => W q) rise flat i 0 := by
  intro i
  induction i with
  | zero => rfl
  | succ i ih => simp only [trap_norm, ih]

theorem mean_rowwise {K : Type} [Field K] [DecidableEq K] (n : ℕ)
    (W : ℕ → ℕ → FP K) (q : ℕ) :
    mean n W q = mean n (fun _ => W q) 0 := rfl

/-- C1: for each of the four kernels and each input family, the batched
(aligned) loop and the per-waveform fallback loop assign the same output
to every waveform index.  `bs ∣ n` holds whenever the aligned path can be
selected at all (the alignment gate requires it). -/
theorem batched_fallback_equivalence {K : Type} [Field K] [DecidableEq K]
    (bs n j : ℕ) (hbs : 0 < bs) (hdvd : bs ∣ n) (hj : j < n)
    (wr : ℕ → ℕ → FP ℝ) (tau : ℕ → FP ℝ) (w : ℕ → ℕ → FP K)
    (rise flat : ℤ) :
    ((runAligned bs n (fun W T q i => pole_zero Real.exp n W T i q) wr tau).lookup j
      = (runFallback n (fun W T q i => pole_zero Real.exp n W T i q) wr tau).lookup j)
    ∧ ((runAligned bs n (fun W (_ : ℕ → Unit) q i => trap_filter n W rise flat i q)
          w (fun _ => ())).lookup j
      = (runFallback n (fun W (_ : ℕ → Unit) q i => trap_filter n W rise flat i q)
          w (fun _ => ())).lookup j)
    ∧ ((runAligned bs n (fun W (_ : ℕ → Unit) q i => trap_norm n W rise flat i q)
          w (fun _ => ())).lookup j
      = (runFallback n (fun W (_ : ℕ → Unit) q i => trap_norm n W rise flat i q)
          w (fun _ => ())).lookup j)
    ∧ ((runAligned bs n (fun W (_ : ℕ → Unit) q => mean n W q)
          w (fun _ => ())).lookup j
      = (runFallback n (fun W (_ : ℕ → Unit) q => mean n W q)
          w (fun _ => ())).lookup j) := by
  refine ⟨?_, ?_, ?_, ?_⟩
  · exact aligned_eq_fallback bs n _ wr tau
      (fun W T q => funext fun i => pole_zero_rowwise Real.exp n W T q i)
      hbs hdvd j hj
  · exact aligned_eq_fallback bs n _ w (fun _ => ())
      (fun W T q => funext fun i => trap_filter_rowwise n W rise flat q i)
      hbs hdvd j hj
  · exact aligned_eq_fallback bs n _ w (fun _ => ())
      (fun W T q => funext fun i => trap_norm_rowwise n W rise flat q i)
      hbs hdvd j hj
  · exact aligned_eq_fallback bs n _ w (fun _ => ())
      (fun W T q => mean_rowwise n W q) hbs hdvd j hj

/-- Witness for C1 at `bs = 2`, `n = 4`, `j = 3`. -/
theorem batched_fallback_equivalence_witness :
    ((0 : ℕ) < 2 ∧ (2 : ℕ) ∣ 4 ∧ (3 : ℕ) < 4)
    ∧ ((runAligned 2 4
          (fun W (_ : ℕ → Unit) q i => trap_filter (K := ℚ) 4 W 2 1 i q)
          (fun r i => FP.fin ((r + i : ℕ) : ℚ)) (fun _ => ())).lookup 3
      = (runFallback 4
          (fun W (_ : ℕ → Unit) q i => trap_filter (K := ℚ) 4 W 2 1 i q)
          (fun r i => FP.fin ((r + i : ℕ) : ℚ)) (fun _ => ())).lookup 3) := by
  refine ⟨⟨by decide, by decide, by decide⟩, ?_⟩
  exact (batched_fallback_equivalence (K := ℚ) 2 4 3 (by decide) (by decide)
    (by decide) (fun _ _ => FP.fin 1) (fun _ => FP.fin 1)
    (fun r i => FP.fin ((r + i : ℕ) : ℚ)) 2 1).2.1

/-- C4: if the outer extent is not a multiple of the call's blocksize and
some argument is a block-reference argument (every kernel in the module
has one), the alignment gate rejects the call, `execute_ufunc` takes the
fallback path, and the fallback loop processes every waveform index
exactly once. -/
theorem fallback_when_not_multiple {A Q β : Type} (cargs : List CallArg)
    (outer_dim : ℕ) (F : (ℕ → A) → (ℕ → Q) → ℕ → β)
    (w : ℕ → A) (p : ℕ → Q) (a : CallArg) (ha : a ∈ cargs)
    (hkind : a.info.kind = ArgKind.wfRef ∨ a.info.kind = ArgKind.constWfRef
      ∨ a.info.kind = ArgKind.scalarBlkRef)
    (hbs : 0 < a.info.blocksize)
    (hnd : ¬ (maxBlocksize cargs ∣ outer_dim)) :
    alignedCheck cargs outer_dim = false
    ∧ execute_ufunc cargs outer_dim F w p = runFallback outer_dim F w p
    ∧ (runFallback outer_dim F w p).map Prod.fst = List.range outer_dim
    ∧ (∀ j < outer_dim,
        ((runFallback outer_dim F w p).map Prod.fst).count j = 1) := by
  have hmod : outer_dim % maxBlocksize cargs ≠ 0 := by
    intro hc
    exact hnd (Nat.dvd_of_mod_eq_zero hc)
  have hfalse : alignedCheck cargs outer_dim = false := by
    rw [alignedCheck, List.all_eq_false]
    refine ⟨a, ha, ?_⟩
    intro hcontra
    rw [Bool.and_eq_true] at hcontra
    obtain ⟨hor, hal⟩ := hcontra
    rw [Bool.or_eq_true, beq_iff_eq, beq_iff_eq] at hor
    rcases hor with h0 | hmax
    · omega
    · rcases hkind with hk | hk | hk <;>
        · rw [ArgInfo.is_aligned, hk] at hal
          simp only [Bool.and_eq_true, beq_iff_eq] at hal
          rw [hmax] at hal
          exact hmod hal.1.2
  have hmap : (runFallback outer_dim F w p).map Prod.fst
      = List.range outer_dim := by
    simp only [runFallback, List.map_map]
    exact List.map_id _
  refine ⟨hfalse, by simp [execute_ufunc, hfalse], hmap, ?_⟩
  intro j hj
  rw [hmap]
  exact List.count_eq_one_of_mem (List.nodup_range _) (List.mem_range.mpr hj)

/-- Witness for C4: one double-waveform argument (blocksize
`64/8 = 8`) and outer extent 4, which 8 does not divide. -/
theorem fallback_when_not_multiple_witness :
    ((⟨⟨ArgKind.constWfRef, 12, 8, 64⟩, 0, 8⟩ : CallArg)
        ∈ [(⟨⟨ArgKind.constWfRef, 12, 8, 64⟩, 0, 8⟩ : CallArg)]
      ∧ 0 < (⟨ArgKind.constWfRef, 12, 8, 64⟩ : ArgInfo).blocksize
      ∧ ¬ (maxBlocksize [⟨⟨ArgKind.constWfRef, 12, 8, 64⟩, 0, 8⟩] ∣ 4))
    ∧ alignedCheck [⟨⟨ArgKind.constWfRef, 12, 8, 64⟩, 0, 8⟩] 4 = false := by
  refine ⟨⟨by decide, by decide, by decide⟩, ?_⟩
  exact (fallback_when_not_multiple
    [⟨⟨ArgKind.constWfRef, 12, 8, 64⟩, 0, 8⟩] 4
    (fun (_ : ℕ → ℕ) (_ : ℕ → ℕ) (_ : ℕ) => (0 : ℕ)) id id
    ⟨⟨ArgKind.constWfRef, 12, 8, 64⟩, 0, 8⟩ (by decide)
    (Or.inr (Or.inl (by decide))) (by decide) (by decide)).1

/-! ## Signature derivation (C6) -/

/-- C6: `get_signature` succeeds exactly on pairs with equal argument
count and position-wise matching element-type tag, `has_inner_dim` and
constness, and then yields `fNargs` = number of declared arguments,
`fNin` = number of read-only (const) arguments, `fNout = fNargs - fNin`,
and the type codes in declaration order; any other pair is rejected
(`none`, the fatal compile/load-time assertion). -/
theorem get_signature_spec (al ul : List ArgInfo) :
    (∀ s : ufunc_signature, get_signature al ul = some s ↔
      (al.length = ul.length
        ∧ (∀ q ∈ al.zip ul, q.1.dtypeChar = q.2.dtypeChar
            ∧ q.1.hasInnerDim = q.2.hasInnerDim ∧ q.1.is_const = q.2.is_const)
        ∧ s.fTypes = al.map (·.dtypeChar)
        ∧ s.fNargs = al.length
        ∧ s.fNin = al.countP (·.is_const)
        ∧ s.fNout = al.length - al.countP (·.is_const)))
    ∧ ((al.length ≠ ul.length
        ∨ ∃ q ∈ al.zip ul, ¬(q.1.dtypeChar = q.2.dtypeChar
            ∧ q.1.hasInnerDim = q.2.hasInnerDim ∧ q.1.is_const = q.2.is_const)) →
      get_signature al ul = none) := by
  constructor
  · intro s
    unfold get_signature
    split
    next hcond =>
      rw [Bool.and_eq_true, beq_iff_eq, List.all_eq_true] at hcond
      obtain ⟨hlen, hall⟩ := hcond
      constructor
      · intro hs
        obtain rfl := Option.some.inj hs
        refine ⟨hlen, fun q hq => ?_, rfl, rfl, rfl, rfl⟩
        have h := hall q hq
        rw [compatibleArg, Bool.and_eq_true, Bool.and_eq_true] at h
        exact ⟨beq_iff_eq.mp h.1.1, beq_iff_eq.mp h.1.2, beq_iff_eq.mp h.2⟩
      · rintro ⟨-, -, h1, h2, h3, h4⟩
        obtain ⟨t1, t2, t3, t4⟩ := s
        simp only at h1 h2 h3 h4
        subst h1 h2 h3 h4
        rfl
    next hcond =>
      constructor
      · intro hs; exact absurd hs (by simp)
      · rintro ⟨hlen, hall, -⟩
        exfalso
        rw [Bool.and_eq_true, beq_iff_eq, List.all_eq_true] at hcond
        push_neg at hcond
        refine absurd (hcond hlen) ?_
        push_neg
        intro q hq
        have h := hall q hq
        rw [compatibleArg, Bool.and_eq_true, Bool.and_eq_true]
        exact ⟨⟨beq_iff_eq.mpr h.1, beq_iff_eq.mpr h.2.1⟩, beq_iff_eq.mpr h.2.2⟩
  · intro h
    unfold get_signature
    rw [if_neg]
    intro hcond
    rw [Bool.and_eq_true, beq_iff_eq, List.all_eq_true] at hcond
    obtain ⟨hlen, hall⟩ := hcond
    rcases h with h | ⟨q, hq, hne⟩
    · exact h hlen
    · have hc := hall q hq
      rw [compatibleArg, Bool.and_eq_true, Bool.and_eq_true] at hc
      exact hne ⟨beq_iff_eq.mp hc.1.1, beq_iff_eq.mp hc.1.2, beq_iff_eq.mp hc.2⟩

/-- `get_signature` only emits signatures with `fNin + fNout = fNargs`,
and at least one argument when the argument list is nonempty: the
invariant `ufunc_implementation` relies on. -/
theorem get_signature_valid {al ul : List ArgInfo} {s : ufunc_signature}
    (h : get_signature al ul = some s) :
    s.fNin + s.fNout = s.fNargs ∧ (al ≠ [] → 1 ≤ s.fNargs) := by
  unfold get_signature at h
  split at h
  · obtain rfl := Option.some.inj h
    refine ⟨Nat.add_sub_cancel' (List.countP_le_length _), fun hne => ?_⟩
    simp only []
    cases al with
    | nil => exact absurd rfl hne
    | cons x xs => simp [List.length_cons]
  · exact absurd h (by simp)

/-- Witness for C6: a pair with mismatched argument counts is rejected. -/
theorem get_signature_spec_witness :
    get_signature [⟨ArgKind.constWfRef, 12, 8, 64⟩]
      [⟨ArgKind.constWfRef, 12, 8, 0⟩, ⟨ArgKind.plainScalar, 12, 8, 0⟩] = none := by
  exact (get_signature_spec _ _).2 (Or.inl (by decide))

/-! ## Registry arity validation (C5) -/

/-- `implStep`, started from the arity triple of a valid signature `s0`,
succeeds exactly on signatures with the same triple, and leaves the
accumulator unchanged. -/
theorem implStep_triple (s0 s : ufunc_signature)
    (h0 : 1 ≤ s0.fNargs ∧ s0.fNin + s0.fNout = s0.fNargs)
    (hs : 1 ≤ s.fNargs ∧ s.fNin + s.fNout = s.fNargs) :
    implStep ⟨s0.fNargs, s0.fNin, s0.fNout⟩ s
      = if s.fNargs = s0.fNargs ∧ s.fNin = s0.fNin ∧ s.fNout = s0.fNout
        then some ⟨s0.fNargs, s0.fNin, s0.fNout⟩ else none := by
  obtain ⟨t, a, i, o⟩ := s
  obtain ⟨h01, h02⟩ := h0
  obtain ⟨hs1, hs2⟩ := hs
  simp only at *
  have hA : ¬ (s0.fNargs = 0) := by omega
  by_cases hEq : (a = s0.fNargs ∧ i = s0.fNin ∧ o = s0.fNout)
  · obtain ⟨rfl, rfl, rfl⟩ := hEq
    simp [implStep]
  · rw [if_neg hEq]
    have hC : ¬ ((if s0.fNargs = 0 then a else s0.fNargs) = a
        ∧ (if s0.fNin = 0 then i else s0.fNin) = i
        ∧ (if s0.fNout = 0 then o else s0.fNout) = o) := by
      rintro ⟨c1, c2, c3⟩
      rw [if_neg hA] at c1
      apply hEq
      by_cases h1 : s0.fNin = 0 <;> by_cases h2 : s0.fNout = 0
      · exfalso; omega
      · rw [if_pos h1] at c2
        rw [if_neg h2] at c3
        exact ⟨by omega, by omega, by omega⟩
      · rw [if_neg h1] at c2
        rw [if_pos h2] at c3
        exact ⟨by omega, by omega, by omega⟩
      · rw [if_neg h1] at c2
        rw [if_neg h2] at c3
        exact ⟨by omega, by omega, by omega⟩
    simp only [implStep]
    rw [if_neg hC]

theorem implStep_zero (s : ufunc_signature) :
    implStep ⟨0, 0, 0⟩ s = some ⟨s.fNargs, s.fNin, s.fNout⟩ := by
  simp [implStep]

theorem implFold_spec (s0 : ufunc_signature)
    (h0 : 1 ≤ s0.fNargs ∧ s0.fNin + s0.fNout = s0.fNargs) :
    ∀ l : List ufunc_signature,
      (∀ s ∈ l, 1 ≤ s.fNargs ∧ s.fNin + s.fNout = s.fNargs) →
      ((List.foldlM implStep ⟨s0.fNargs, s0.fNin, s0.fNout⟩ l).isSome = true ↔
        ∀ s ∈ l, s.fNargs = s0.fNargs ∧ s.fNin = s0.fNin ∧ s.fNout = s0.fNout) := by
  intro l
  induction l with
  | nil => intro _; simp
  | cons s tl ih =>
    intro hv
    rw [List.foldlM_cons, implStep_triple s0 s h0 (hv s (List.mem_cons_self s tl))]
    by_cases hc : s.fNargs = s0.fNargs ∧ s.fNin = s0.fNin ∧ s.fNout = s0.fNout
    · rw [if_pos hc]
      simp only [Option.bind_eq_bind, Option.some_bind]
      rw [ih (fun t ht => hv t (List.mem_cons_of_mem s ht))]
      constructor
      · intro h t ht
        rcases List.mem_cons.mp ht with rfl | ht2
        · exact hc
        · exact h t ht2
      · intro h t ht
        exact h t (List.mem_cons_of_mem s ht)
    · rw [if_neg hc]
      simp only [Option.bind_eq_bind, Option.none_bind, Option.isSome_none,
        Bool.false_eq_true, false_iff]
      intro h
      exact hc (h s (List.mem_cons_self s tl))

/-- C5: building a `ufunc_implementation` from signatures that all
satisfy the `get_signature` invariant (`fNin + fNout = fNargs >= 1`)
succeeds iff every pair of signatures in the list agrees on
`(fNargs, fNin, fNout)`; any disagreement makes the constructor fail
(the fatal `assert`), never silently proceed. -/
theorem ufunc_implementation_spec (l : List ufunc_signature)
    (hv : ∀ s ∈ l, 1 ≤ s.fNargs ∧ s.fNin + s.fNout = s.fNargs) :
    (ufunc_implementation l).isSome = true ↔
      ∀ s ∈ l, ∀ t ∈ l,
        s.fNargs = t.fNargs ∧ s.fNin = t.fNin ∧ s.fNout = t.fNout := by
  cases l with
  | nil => simp [ufunc_implementation]
  | cons s0 tl =>
    unfold ufunc_implementation
    rw [List.foldlM_cons, implStep_zero]
    simp only [Option.bind_eq_bind, Option.some_bind]
    rw [implFold_spec s0 (hv s0 (List.mem_cons_self s0 tl))
      tl (fun t ht => hv t (List.mem_cons_of_mem s0 ht))]
    constructor
    · intro h s hs t ht
      have hof : ∀ u ∈ s0 :: tl, u.fNargs = s0.fNargs ∧ u.fNin = s0.fNin
          ∧ u.fNout = s0.fNout := by
        intro u hu
        rcases List.mem_cons.mp hu with rfl | hu2
        · exact ⟨rfl, rfl, rfl⟩
        · exact h u hu2
      obtain ⟨ha1, ha2, ha3⟩ := hof s hs
      obtain ⟨hb1, hb2, hb3⟩ := hof t ht
      exact ⟨ha1.trans hb1.symm, ha2.trans hb2.symm, ha3.trans hb3.symm⟩
    · intro h t ht
      exact h t (List.mem_cons_of_mem s0 ht) s0 (List.mem_cons_self s0 tl)

/-- Witness for C5: two implementations with triples `(3,2,1)` and
`(3,1,2)` (as the int/double `trap_filter` variants would have if one
mismarked an argument) make registration fail. -/
theorem ufunc_implementation_spec_witness :
    (∀ s ∈ [(⟨[12, 12, 12], 3, 2, 1⟩ : ufunc_signature), ⟨[11, 11, 11], 3, 1, 2⟩],
      1 ≤ s.fNargs ∧ s.fNin + s.fNout = s.fNargs)
    ∧ (ufunc_implementation
        [⟨[12, 12, 12], 3, 2, 1⟩, ⟨[11, 11, 11], 3, 1, 2⟩]).isSome = false := by
  refine ⟨by decide, ?_⟩
  have h := ufunc_implementation_spec
    [⟨[12, 12, 12], 3, 2, 1⟩, ⟨[11, 11, 11], 3, 1, 2⟩] (by decide)
  rw [Bool.eq_false_iff]
  intro hcontra
  have h2 := h.mp hcontra ⟨[12, 12, 12], 3, 2, 1⟩ (by decide)
    ⟨[11, 11, 11], 3, 1, 2⟩ (by decide)
  simp at h2

/-! ## The alignment predicate (C2) -/

/-- C2 counterexample: a 64-byte-aligned `const_wfblock_ref<double>`
buffer (`dtypeChar` 12, `sizeof` 8, `Align` 64, blocksize `64/8 = 8`) in
the standard C-contiguous layout of 8 waveforms of 8 samples: base
address 0 (64-byte aligned), inner stride 8 bytes (densely packed
samples, equal to the element size), outer extent 8 (a multiple of the
blocksize), outer stride 64.  The claim's three conditions all hold, yet
`is_aligned(args = 0, outer_dim = 8, outer_step = 64)` is false: the
code compares the OUTER stride (byte distance between successive
sequences), not the inner stride, against `sizeof(T)` - it accepts only
the transposed, waveform-interleaved layout. -/
theorem is_aligned_claim_counterexample :
    ((0 : ℕ) % (⟨ArgKind.constWfRef, 12, 8, 64⟩ : ArgInfo).align = 0
      ∧ (8 : ℤ) = ((⟨ArgKind.constWfRef, 12, 8, 64⟩ : ArgInfo).elemSize : ℤ)
      ∧ (8 : ℕ) % (⟨ArgKind.constWfRef, 12, 8, 64⟩ : ArgInfo).blocksize = 0)
    ∧ (⟨ArgKind.constWfRef, 12, 8, 64⟩ : ArgInfo).is_aligned 0 8 64 = false := by
  exact ⟨⟨by decide, by decide, by decide⟩, by decide⟩

/-- C2 amended: per argument, `is_aligned` returns true iff the base
address is a multiple of the required alignment AND the OUTER stride
(the byte distance between successive sequences, `steps[i]`) equals the
native element size AND the outer extent is an exact multiple of the
argument's own blocksize — except that for a read-only scalar-block
argument it also returns true when the outer stride is 0 (broadcast
scalar), and for a plain scalar argument it returns true exactly when
the outer stride is 0 (no address or extent condition at all).  The
inner (per-sample) stride is never examined. -/
theorem is_aligned_spec (a : ArgInfo) (addr outer_dim : ℕ)
    (outer_step : ℤ) :
    a.is_aligned addr outer_dim outer_step = true ↔
      (match a.kind with
       | ArgKind.plainScalar => outer_step = 0
       | ArgKind.constScalarBlkRef =>
           (addr % a.align = 0 ∧ outer_dim % a.blocksize = 0
             ∧ outer_step = (a.elemSize : ℤ)) ∨ outer_step = 0
       | _ => addr % a.align = 0 ∧ outer_dim % a.blocksize = 0
             ∧ outer_step = (a.elemSize : ℤ)) := by
  obtain ⟨kind, dt, es, al⟩ := a
  cases kind <;>
    simp [ArgInfo.is_aligned, and_assoc]

end PygamaEigen
